import Mathlib

/-!
# middleware-security-echo: filter matching, handler chaining and the JWT gate

A shallow embedding of `src/middleware-security-echo/main.go`.

* Go strings are modelled by `String`, Go slices by `List`, Go `int` by `Int`.
* `strings.ToLower` is a library function that is not part of the repository; the
  matching functions take it as the parameter `toLower`, so every general statement
  holds for whatever case mapping the library implements.  `asciiToLower` is the
  mapping restricted to ASCII letters; it is used to evaluate concrete ASCII inputs.
* A handler (`echo.HandlerFunc`) is a function from a request context and the
  observable world state to an outcome and a new world state.  The world state is
  what lets the order of side effects and the (non-)invocation of a wrapped handler
  be stated.
* `jwt.Parse` together with its key function is taken as the parameter `Parse`.
-/

namespace MiddlewareSecurityEcho

/-! ## FilterEngine: `contains` and `containsInt` -/

/-- ASCII case mapping: the letters A to Z are moved to a to z, any other character
is kept. -/
def asciiToLower (s : String) : String :=
  String.mk (s.data.map Char.toLower)

/-- The inner loop of `contains` (main.go lines 91-96) for one lower-cased candidate
element `n`: scan `val` in order and stop at the first `v` with `n == ToLower(v)`.
The result tells whether `found++` was executed. -/
def containsInner (toLower : String → String) (n : String) : List String → Bool
  | [] => false
  | v :: vs => if n = toLower v then true else containsInner toLower n vs

/-- The outer loop of `contains` (main.go lines 89-97), threading the counter
`found` through the elements of `in`. -/
def containsLoop (toLower : String → String) (val : List String) :
    List String → Nat → Nat
  | [], found => found
  | n :: rest, found =>
    let n := toLower n
    containsLoop toLower val rest
      (if containsInner toLower n val then found + 1 else found)

/-- `contains(in, val)` (main.go lines 86-100): `len(val) == found`. -/
def contains (toLower : String → String) (in_ val : List String) : Bool :=
  decide (val.length = containsLoop toLower val in_ 0)

/-- `strconv.Itoa`: the base-10 rendering of an integer, with a leading minus sign
for negative numbers. -/
def Itoa : Int → String
  | Int.ofNat m => String.mk (Nat.toDigits 10 m)
  | Int.negSucc m => String.mk ('-' :: Nat.toDigits 10 (m + 1))

/-- The inner loop of `containsInt` (main.go lines 106-111): scan `val` in order and
stop at the first `v` with `n == v`. -/
def containsIntInner (n : String) : List String → Bool
  | [] => false
  | v :: vs => if n = v then true else containsIntInner n vs

/-- The outer loop of `containsInt` (main.go lines 104-112). -/
def containsIntLoop (val : List String) : List Int → Nat → Nat
  | [], found => found
  | _n :: rest, found =>
    let n := Itoa _n
    containsIntLoop val rest (if containsIntInner n val then found + 1 else found)

/-- `containsInt(in, val)` (main.go lines 102-115): `len(val) == found`. -/
def containsInt (in_ : List Int) (val : List String) : Bool :=
  decide (val.length = containsIntLoop val in_ 0)

/-- The reading of "required is a sub-multiset of candidate up to case": the
candidate can be rearranged into a block `paired` followed by a remainder `rest`,
where `paired` lists, for each element of `required` in turn, its own candidate
element, equal to it after lower-casing. -/
def SubMultisetUpToCase (toLower : String → String)
    (required candidate : List String) : Prop :=
  ∃ paired rest : List String,
    candidate.Perm (paired ++ rest) ∧
    List.Forall₂ (fun r c => toLower r = toLower c) required paired

/-! ## Requests, contexts and handlers -/

/-- `http.StatusOK`. -/
def StatusOK : Nat := 200

/-- `http.StatusUnauthorized`. -/
def StatusUnauthorized : Nat := 401

/-- The value built by `echo.NewHTTPError(code, message)`. -/
structure HTTPError where
  Code : Nat
  Message : String
  deriving DecidableEq, Repr

/-- `echo.NewHTTPError`. -/
def NewHTTPError (code : Nat) (message : String) : HTTPError :=
  ⟨code, message⟩

/-- The body type `Message` (main.go lines 30-32). -/
structure Message where
  Data : String
  deriving DecidableEq, Repr

/-- What `c.JSON(status, body)` sends. -/
structure Response where
  status : Nat
  body : Message
  deriving DecidableEq, Repr

/-- `http.Header`: a key is mapped to the list of its values. -/
abbrev Header := List (String × List String)

/-- `Header.Get`: the first value stored under the key, the empty string when there
is none. -/
def Header.Get (h : Header) (key : String) : String :=
  match h.lookup key with
  | some (v :: _) => v
  | _ => ""

/-- The part of `http.Request` that the program reads. -/
structure Request where
  Header : Header
  deriving DecidableEq, Repr

/-- `jwt.MapClaims`: the decoded claim set, claim name to value. -/
abbrev MapClaims (V : Type) := List (String × V)

/-- The index expression `claims[key]` in its two-result form: `none` when the key
is absent (Go yields the nil value and `ok == false`). -/
def MapClaims.get {V : Type} (m : MapClaims V) (key : String) : Option V :=
  m.lookup key

/-- The interface `echo.Context` with its two implementations: the context made by
the framework for a request, and `CustomContext` (main.go lines 26-29), which embeds
an `echo.Context` and adds the field `Claims`. -/
inductive Context (V : Type) where
  | request (req : Request)
  | CustomContext (inner : Context V) (Claims : MapClaims V)
  deriving DecidableEq, Repr

/-- `c.Request()`; `CustomContext` inherits it from the embedded context. -/
def Context.Request {V : Type} : Context V → Request
  | .request req => req
  | .CustomContext inner _ => inner.Request

/-- How a handler call ends: a run-time panic, a returned error, or a nil error
after the response `a` has been sent. -/
inductive Outcome (α : Type) where
  | panic
  | error (e : HTTPError)
  | ok (a : α)
  deriving DecidableEq, Repr

/-- `echo.HandlerFunc`, as a function on the request context and the world state. -/
abbrev HandlerFunc (V σ α : Type) := Context V → σ → Outcome α × σ

/-- `Chain(h, middleware...)` (main.go lines 246-251): `h = m(h)` for each `m` in
order, then `return h`. -/
def Chain {V σ α : Type} (h : HandlerFunc V σ α) :
    List (HandlerFunc V σ α → HandlerFunc V σ α) → HandlerFunc V σ α
  | [] => h
  | m :: middleware => Chain (m h) middleware

/-- An interceptor of the kind used to observe execution order: it appends `pre`
to the log, delegates to the handler it wraps, and then appends `post`.  When the
wrapped handler panics the code after the delegated call is not reached. -/
def logging {V α : Type} (pre post : String)
    (next : HandlerFunc V (List String) α) : HandlerFunc V (List String) α :=
  fun c log =>
    match next c (log ++ [pre]) with
    | (Outcome.panic, log1) => (Outcome.panic, log1)
    | (r, log1) => (r, log1 ++ [post])

/-- A base handler that appends `entry` to the log and sends `a`. -/
def logBase {V α : Type} (entry : String) (a : α) : HandlerFunc V (List String) α :=
  fun _ log => (Outcome.ok a, log ++ [entry])

/-- A handler that records every context it is invoked with and ends with `r`. -/
def recording {V α : Type} (r : Outcome α) : HandlerFunc V (List (Context V)) α :=
  fun c trace => (r, trace ++ [c])

/-- The pieces of a character list between the occurrences of `sep`. -/
def splitChars (sep : Char) : List Char → List (List Char)
  | [] => [[]]
  | c :: cs =>
    if c = sep then [] :: splitChars sep cs
    else
      match splitChars sep cs with
      | [] => [[c]]
      | p :: ps => (c :: p) :: ps

/-- `strings.Split(s, sep)` for a separator of one character: the substrings
between the separators, one more than there are separators. -/
def Split (s : String) (sep : Char) : List String :=
  (splitChars sep s.data).map String.mk

/-- The interface `jwt.Claims` as held by a parsed token: a `jwt.MapClaims` or some
other implementation. -/
inductive Claims (V : Type) where
  | MapClaims (m : MapClaims V)
  | other
  deriving DecidableEq, Repr

/-- The fields of `jwt.Token` that `jwtMW` reads. -/
structure Token (V : Type) where
  Claims : Claims V
  Valid : Bool
  deriving DecidableEq, Repr

/-- `fmt.Sprintf("%v", x)` for an interface value `x`: the nil interface is rendered
as `<nil>`, any other value by `fmtV`. -/
def Sprintf_v {V : Type} (fmtV : V → String) : Option V → String
  | none => "<nil>"
  | some v => fmtV v

/-- `authenticated` (main.go lines 253-263).  The type assertion panics on a
context that is not a `CustomContext`.  In the branch `!ok` the error value is
built and dropped, and control falls through to the statements after the `if`. -/
def authenticated {V σ : Type} (fmtV : V → String) : HandlerFunc V σ Response :=
  fun c s =>
    match c with
    | .request _ => (Outcome.panic, s)
    | .CustomContext _ Claims =>
      let _name := MapClaims.get Claims "name"
      let _dropped := if _name.isNone then
        some (NewHTTPError StatusUnauthorized "malformed jwt") else none
      let name := Sprintf_v fmtV _name
      (Outcome.ok ⟨StatusOK, ⟨name⟩⟩, s)

/-- `jwtMW` (main.go lines 265-299).  `Parse` stands for `jwt.Parse` applied to the
token string and the key function of lines 279-284. -/
def jwtMW {V σ α : Type} (Parse : String → Except String (Token V))
    (next : HandlerFunc V σ α) : HandlerFunc V σ α :=
  fun c s =>
    let authorization := c.Request.Header.Get "Authorization"
    let splitToken := Split authorization ' '
    if splitToken.length ≠ 2 then
      (Outcome.error (NewHTTPError StatusUnauthorized "no valid token found"), s)
    else
      let jwtToken := splitToken.getD 1 ""
      match Parse jwtToken with
      | .error _ => (Outcome.error (NewHTTPError StatusUnauthorized "unauthorized"), s)
      | .ok token =>
        match token.Claims, token.Valid with
        | .MapClaims claims, true => next (.CustomContext c claims) s
        | _, _ => (Outcome.error (NewHTTPError StatusUnauthorized "unauthorized"), s)

/-- A stand-in for `jwt.Parse` used to evaluate `jwtMW` on concrete requests: the
token string `good` verifies and carries the claim name = alice, the token string
`empty` verifies and carries no claim, every other string is rejected. -/
def sampleParse : String → Except String (Token String)
  | "good" => .ok ⟨.MapClaims [("name", "alice")], true⟩
  | "empty" => .ok ⟨.MapClaims [], true⟩
  | _ => .error "token is malformed"

/-- A request whose only header is `Authorization` with the given value. -/
def requestWith (authorization : String) : Context String :=
  .request ⟨[("Authorization", [authorization])]⟩

/-! ## Lemmas on the matching loops -/

theorem containsInner_iff (toLower : String → String) (n : String) (val : List String) :
    containsInner toLower n val = true ↔ ∃ v ∈ val, n = toLower v := by
  induction val with
  | nil => simp [containsInner]
  | cons v vs ih =>
    by_cases h : n = toLower v
    · simp [containsInner, h]
    · simp [containsInner, h, ih]

theorem containsLoop_eq_countP (toLower : String → String) (val in_ : List String)
    (found : Nat) :
    containsLoop toLower val in_ found =
      found + in_.countP (fun c => decide (∃ r ∈ val, toLower c = toLower r)) := by
  induction in_ generalizing found with
  | nil => simp [containsLoop]
  | cons n rest ih =>
    by_cases h : ∃ r ∈ val, toLower n = toLower r
    · have hi : containsInner toLower (toLower n) val = true :=
        (containsInner_iff toLower _ val).2 h
      simp only [containsLoop, hi, if_true, ih, List.countP_cons, h, decide_True]
      omega
    · have hi : containsInner toLower (toLower n) val = false := by
        cases hb : containsInner toLower (toLower n) val with
        | false => rfl
        | true => exact absurd ((containsInner_iff toLower _ val).1 hb) h
      simp [containsLoop, hi, ih, List.countP_cons, h]

theorem containsIntInner_iff (n : String) (val : List String) :
    containsIntInner n val = true ↔ n ∈ val := by
  induction val with
  | nil => simp [containsIntInner]
  | cons v vs ih =>
    by_cases h : n = v
    · simp [containsIntInner, h]
    · simp [containsIntInner, h, ih]

theorem containsIntLoop_eq_countP (val : List String) (in_ : List Int) (found : Nat) :
    containsIntLoop val in_ found =
      found + in_.countP (fun k => decide (Itoa k ∈ val)) := by
  induction in_ generalizing found with
  | nil => simp [containsIntLoop]
  | cons n rest ih =>
    by_cases h : Itoa n ∈ val
    · have hi : containsIntInner (Itoa n) val = true := (containsIntInner_iff _ val).2 h
      simp only [containsIntLoop, hi, if_true, ih, List.countP_cons, h, decide_True]
      omega
    · have hi : containsIntInner (Itoa n) val = false := by
        cases hb : containsIntInner (Itoa n) val with
        | false => rfl
        | true => exact absurd ((containsIntInner_iff _ val).1 hb) h
      simp [containsIntLoop, hi, ih, List.countP_cons, h]

theorem contains_eq_true_iff (toLower : String → String) (in_ val : List String) :
    contains toLower in_ val = true ↔
      in_.countP (fun c => decide (∃ r ∈ val, toLower c = toLower r)) = val.length := by
  simp only [contains, containsLoop_eq_countP, decide_eq_true_eq, Nat.zero_add]
  exact eq_comm

/-! ## Lemmas on decimal renderings and the ASCII case mapping -/

theorem toLower_fixes_decimal (c : Char) (hc : c ∈ "-0123456789".data) :
    c.toLower = c := by
  have hall : ∀ d ∈ "-0123456789".data, d.toLower = d := by decide
  exact hall c hc

theorem upper_letter_cases (c : Char) (h : c.toNat ≥ 65 ∧ c.toNat ≤ 90) :
    c ∈ "ABCDEFGHIJKLMNOPQRSTUVWXYZ".data := by
  obtain ⟨h1, h2⟩ := h
  have hc : Char.ofNat c.toNat = c := Char.ofNat_toNat c
  generalize c.toNat = k at h1 h2 hc
  subst hc
  interval_cases k <;> decide

theorem toLower_reflects_decimal (c d : Char) (h : c.toLower = d)
    (hd : d ∈ "-0123456789".data) : c = d := by
  by_cases hu : c.toNat ≥ 65 ∧ c.toNat ≤ 90
  · exfalso
    have hall : ∀ u ∈ "ABCDEFGHIJKLMNOPQRSTUVWXYZ".data,
        u.toLower ∉ "-0123456789".data := by decide
    exact hall c (upper_letter_cases c hu) (h ▸ hd)
  · have : c.toLower = c := by
      unfold Char.toLower
      simp only [hu, if_false]
    rw [← h, this]

theorem digitChar_decimal (k : Nat) (hk : k < 10) :
    Nat.digitChar k ∈ "-0123456789".data := by
  interval_cases k <;> decide

theorem toDigitsCore_decimal (fuel n : Nat) (ds : List Char)
    (hds : ∀ c ∈ ds, c ∈ "-0123456789".data) :
    ∀ c ∈ Nat.toDigitsCore 10 fuel n ds, c ∈ "-0123456789".data := by
  induction fuel generalizing n ds with
  | zero => simpa [Nat.toDigitsCore] using hds
  | succ fuel ih =>
    have hd : Nat.digitChar (n % 10) ∈ "-0123456789".data :=
      digitChar_decimal _ (Nat.mod_lt _ (by decide))
    have hcons : ∀ c ∈ Nat.digitChar (n % 10) :: ds, c ∈ "-0123456789".data := by
      intro c hc
      rcases List.mem_cons.1 hc with rfl | hc
      · exact hd
      · exact hds c hc
    unfold Nat.toDigitsCore
    by_cases h0 : n / 10 = 0
    · simpa [h0] using hcons
    · simp only [h0, if_false]
      exact ih _ _ hcons

theorem Itoa_decimal (n : Int) : ∀ c ∈ (Itoa n).data, c ∈ "-0123456789".data := by
  cases n with
  | ofNat m =>
    exact toDigitsCore_decimal _ _ [] (by simp)
  | negSucc m =>
    intro c hc
    simp only [Itoa, List.mem_cons] at hc
    rcases hc with rfl | hc
    · decide
    · exact toDigitsCore_decimal _ _ [] (by simp) c hc

theorem asciiToLower_Itoa (n : Int) : asciiToLower (Itoa n) = Itoa n := by
  have hmap : (Itoa n).data.map Char.toLower = (Itoa n).data := by
    conv_rhs => rw [← List.map_id (Itoa n).data]
    apply List.map_congr_left
    intro c hc
    simpa using toLower_fixes_decimal c (Itoa_decimal n c hc)
  simp [asciiToLower, hmap]

theorem map_toLower_reflects (l1 l2 : List Char) (h : l1.map Char.toLower = l2)
    (h2 : ∀ d ∈ l2, d ∈ "-0123456789".data) : l1 = l2 := by
  induction l1 generalizing l2 with
  | nil => simpa using h
  | cons c cs ih =>
    cases l2 with
    | nil => simp at h
    | cons d ds =>
      simp only [List.map_cons, List.cons.injEq] at h
      have hcd := toLower_reflects_decimal c d h.1 (h2 d (List.mem_cons_self _ _))
      have hrest := ih ds h.2 (fun x hx => h2 x (List.mem_cons_of_mem _ hx))
      rw [hcd, hrest]

theorem asciiToLower_eq_Itoa (v : String) (n : Int) (h : asciiToLower v = Itoa n) :
    v = Itoa n := by
  have hd : v.data.map Char.toLower = (Itoa n).data := by
    rw [← h]; rfl
  have := map_toLower_reflects _ _ hd (Itoa_decimal n)
  exact String.ext this

/-! ## FilterEngine: the claims -/

theorem match_count_eq_length_iff (toLower : String → String) (candidate required : List String)
    (hc : (candidate.map toLower).Nodup) (hr : (required.map toLower).Nodup) :
    candidate.countP (fun c => decide (∃ r ∈ required, toLower c = toLower r)) =
        required.length ↔
      ∀ r ∈ required, ∃ c ∈ candidate, toLower r = toLower c := by
  classical
  have hcount : candidate.countP (fun c => decide (∃ r ∈ required, toLower c = toLower r)) =
      ((candidate.map toLower).toFinset ∩ (required.map toLower).toFinset).card := by
    have h1 : candidate.countP (fun c => decide (∃ r ∈ required, toLower c = toLower r)) =
        (candidate.map toLower).countP (fun x => decide (x ∈ required.map toLower)) := by
      rw [List.countP_map]
      apply List.countP_congr
      intro c _
      simp only [Function.comp, decide_eq_true_eq, List.mem_map]
      constructor
      · rintro ⟨r, hr1, hr2⟩; exact ⟨r, hr1, hr2.symm⟩
      · rintro ⟨r, hr1, hr2⟩; exact ⟨r, hr1, hr2.symm⟩
    rw [h1, List.countP_eq_length_filter,
      ← List.toFinset_card_of_nodup (hc.filter _), List.toFinset_filter]
    congr 1
    ext x
    simp
  have hlen : required.length = ((required.map toLower).toFinset).card := by
    rw [List.toFinset_card_of_nodup hr, List.length_map]
  rw [hcount, hlen]
  constructor
  · intro h r hrm
    have hsub : (candidate.map toLower).toFinset ∩ (required.map toLower).toFinset =
        (required.map toLower).toFinset :=
      Finset.eq_of_subset_of_card_le Finset.inter_subset_right (le_of_eq h.symm)
    have hx : toLower r ∈ (required.map toLower).toFinset := by
      simp only [List.mem_toFinset, List.mem_map]; exact ⟨r, hrm, rfl⟩
    rw [← hsub] at hx
    have hx2 := (Finset.mem_inter.1 hx).1
    simp only [List.mem_toFinset, List.mem_map] at hx2
    obtain ⟨c, hc1, hc2⟩ := hx2
    exact ⟨c, hc1, hc2.symm⟩
  · intro h
    congr 1
    apply Finset.inter_eq_right.2
    intro x hx
    simp only [List.mem_toFinset, List.mem_map] at hx ⊢
    obtain ⟨r, hr1, hr2⟩ := hx
    obtain ⟨c, hc1, hc2⟩ := h r hr1
    exact ⟨c, hc1, by rw [← hc2, hr2]⟩

theorem forall₂_exists_left {R : String → String → Prop} {l1 l2 : List String}
    (h : List.Forall₂ R l1 l2) : ∀ c ∈ l2, ∃ r ∈ l1, R r c := by
  induction h with
  | nil => intro c hc; simp at hc
  | cons hab _ ih =>
    intro c hc
    rcases List.mem_cons.1 hc with rfl | hc
    · exact ⟨_, List.mem_cons_self _ _, hab⟩
    · obtain ⟨r, hr, hrc⟩ := ih c hc
      exact ⟨r, List.mem_cons_of_mem _ hr, hrc⟩

/-- C3: `contains(candidate, required)` is true exactly when the number of positions
of `candidate` whose element equals, after lower-casing both sides, at least one
element of `required` is the length of `required`. -/
theorem contains_iff_match_count (toLower : String → String)
    (candidate required : List String) :
    contains toLower candidate required = true ↔
      candidate.countP (fun c => decide (∃ r ∈ required, toLower c = toLower r)) =
        required.length :=
  contains_eq_true_iff toLower candidate required

/-- C7: an empty `required` matches every candidate, for `contains` (whatever the
case mapping) and for `containsInt`. -/
theorem contains_empty_required :
    (∀ (toLower : String → String) (candidate : List String),
        contains toLower candidate [] = true) ∧
    (∀ candidate : List Int, containsInt candidate [] = true) := by
  constructor
  · intro toLower candidate
    rw [contains_eq_true_iff]
    simp
  · intro candidate
    simp [containsInt, containsIntLoop_eq_countP]

/-- C8: one candidate element raises the counter by at most one, so the counter
never exceeds the number of candidate elements; a candidate with fewer elements than
`required` is rejected, and `contains(["go"], ["go","go"])` is false. -/
theorem contains_undercount :
    (∀ (toLower : String → String) (required : List String) (c : String) (found : Nat),
        containsLoop toLower required [c] found ≤ found + 1) ∧
    (∀ (toLower : String → String) (required candidate : List String),
        containsLoop toLower required candidate 0 ≤ candidate.length) ∧
    (∀ (toLower : String → String) (candidate required : List String),
        candidate.length < required.length →
          contains toLower candidate required = false) ∧
    (∀ toLower : String → String, contains toLower ["go"] ["go", "go"] = false) := by
  have hle : ∀ (toLower : String → String) (required candidate : List String),
      containsLoop toLower required candidate 0 ≤ candidate.length := by
    intro toLower required candidate
    rw [containsLoop_eq_countP, Nat.zero_add]
    exact List.countP_le_length _
  have hlt : ∀ (toLower : String → String) (candidate required : List String),
      candidate.length < required.length →
        contains toLower candidate required = false := by
    intro toLower candidate required h
    have := hle toLower required candidate
    simp only [contains, decide_eq_false_iff_not]
    omega
  refine ⟨?_, hle, hlt, ?_⟩
  · intro toLower required c found
    simp only [containsLoop]
    split <;> omega
  · intro toLower
    exact hlt toLower ["go"] ["go", "go"] (by decide)

/-- Witness for C8 on a one-element candidate and a two-element requirement. -/
theorem contains_undercount_witness :
    ["Go"].length < ["go", "rust"].length ∧
      contains asciiToLower ["Go"] ["go", "rust"] = false :=
  ⟨by decide, contains_undercount.2.2.1 asciiToLower ["Go"] ["go", "rust"] (by decide)⟩

/-- C10: when no two elements of `candidate` and no two elements of `required` are
equal after lower-casing, `contains` is true exactly when every element of
`required` equals, after lower-casing, some element of `candidate`. -/
theorem contains_iff_subset_of_nodup (toLower : String → String)
    (candidate required : List String)
    (hc : (candidate.map toLower).Nodup) (hr : (required.map toLower).Nodup) :
    contains toLower candidate required = true ↔
      ∀ r ∈ required, ∃ c ∈ candidate, toLower r = toLower c := by
  rw [contains_eq_true_iff]
  exact match_count_eq_length_iff toLower candidate required hc hr

/-- Witness for C10 with three distinct interests and two distinct requests. -/
theorem contains_iff_subset_of_nodup_witness :
    (["Go", "rust", "java"].map asciiToLower).Nodup ∧
    (["RUST", "go"].map asciiToLower).Nodup ∧
    (contains asciiToLower ["Go", "rust", "java"] ["RUST", "go"] = true ↔
      ∀ r ∈ ["RUST", "go"], ∃ c ∈ ["Go", "rust", "java"],
        asciiToLower r = asciiToLower c) :=
  ⟨by decide, by decide,
    contains_iff_subset_of_nodup asciiToLower ["Go", "rust", "java"] ["RUST", "go"]
      (by decide) (by decide)⟩

/-- C2, refuted as stated: `["GO","rust"]` is a sub-multiset of `["go","rust","go"]`
up to case, yet `contains(["go","rust","go"], ["GO","rust"])` is false, because the
second "go" is counted as well and the counter reaches 3. -/
theorem contains_submultiset_counterexample :
    SubMultisetUpToCase asciiToLower ["GO", "rust"] ["go", "rust", "go"] ∧
    containsLoop asciiToLower ["GO", "rust"] ["go", "rust", "go"] 0 = 3 ∧
    contains asciiToLower ["go", "rust", "go"] ["GO", "rust"] = false := by
  refine ⟨⟨["go", "rust"], ["go"], List.Perm.refl _, ?_⟩, by decide, by decide⟩
  exact List.Forall₂.cons (by decide) (List.Forall₂.cons (by decide) List.Forall₂.nil)

/-- C2, amended: when `required` is a sub-multiset of `candidate` up to case and no
candidate element left out of the pairing equals, after lower-casing, an element of
`required`, `contains` is true. -/
theorem contains_of_exact_pairing (toLower : String → String)
    (candidate required paired rest : List String)
    (hperm : candidate.Perm (paired ++ rest))
    (hpair : List.Forall₂ (fun r c => toLower r = toLower c) required paired)
    (hrest : ∀ c ∈ rest, ∀ r ∈ required, toLower c ≠ toLower r) :
    contains toLower candidate required = true := by
  rw [contains_eq_true_iff, hperm.countP_eq, List.countP_append]
  have hp : paired.countP (fun c => decide (∃ r ∈ required, toLower c = toLower r)) =
      paired.length := by
    rw [List.countP_eq_length]
    intro c hc
    obtain ⟨r, hr, hrc⟩ := forall₂_exists_left hpair c hc
    simp only [decide_eq_true_eq]
    exact ⟨r, hr, hrc.symm⟩
  have hq : rest.countP (fun c => decide (∃ r ∈ required, toLower c = toLower r)) = 0 := by
    rw [List.countP_eq_zero]
    intro c hc
    simp only [decide_eq_true_eq, not_exists, not_and]
    exact fun r hr => hrest c hc r hr
  rw [hp, hq, Nat.add_zero, hpair.length_eq]

/-- Witness for the amended C2: a candidate holding one element per requested value
and one unrelated element. -/
theorem contains_of_exact_pairing_witness :
    ["go", "rust", "java"].Perm (["go", "rust"] ++ ["java"]) ∧
    List.Forall₂ (fun r c => asciiToLower r = asciiToLower c) ["GO", "rust"]
      ["go", "rust"] ∧
    (∀ c ∈ ["java"], ∀ r ∈ ["GO", "rust"], asciiToLower c ≠ asciiToLower r) ∧
    contains asciiToLower ["go", "rust", "java"] ["GO", "rust"] = true :=
  ⟨List.Perm.refl _,
    List.Forall₂.cons (by decide) (List.Forall₂.cons (by decide) List.Forall₂.nil),
    by decide,
    contains_of_exact_pairing asciiToLower ["go", "rust", "java"] ["GO", "rust"]
      ["go", "rust"] ["java"] (List.Perm.refl _)
      (List.Forall₂.cons (by decide) (List.Forall₂.cons (by decide) List.Forall₂.nil))
      (by decide)⟩

/-- C9: `containsInt(in, val)` equals `contains` applied to the base-10 renderings of
`in` and to `val`, for every case mapping that leaves decimal renderings unchanged
and maps no other string to one; the comparison is on strings, so
`containsInt([7], ["007"])` is false and `containsInt([7], ["7"])` is true. -/
theorem containsInt_eq_contains_Itoa (toLower : String → String)
    (hfix : ∀ n : Int, toLower (Itoa n) = Itoa n)
    (hreflect : ∀ (v : String) (n : Int), toLower v = Itoa n → v = Itoa n)
    (in_ : List Int) (val : List String) :
    containsInt in_ val = contains toLower (in_.map Itoa) val ∧
    containsInt [7] ["007"] = false ∧
    containsInt [7] ["7"] = true := by
  refine ⟨?_, by decide, by decide⟩
  have hcount : (in_.map Itoa).countP
      (fun c => decide (∃ r ∈ val, toLower c = toLower r)) =
      in_.countP (fun k => decide (Itoa k ∈ val)) := by
    rw [List.countP_map]
    apply List.countP_congr
    intro k _
    simp only [Function.comp, decide_eq_true_eq]
    constructor
    · rintro ⟨r, hr, hkr⟩
      rw [hfix] at hkr
      rw [← hreflect r k hkr.symm]
      exact hr
    · intro hk
      exact ⟨Itoa k, hk, rfl⟩
  simp only [containsInt, contains, containsIntLoop_eq_countP, containsLoop_eq_countP,
    hcount]

/-- Witness for C9 with the ASCII case mapping, on attendees 7 and -12. -/
theorem containsInt_eq_contains_Itoa_witness :
    (∀ n : Int, asciiToLower (Itoa n) = Itoa n) ∧
    (∀ (v : String) (n : Int), asciiToLower v = Itoa n → v = Itoa n) ∧
    containsInt [7, -12] ["-12", "7"] =
      contains asciiToLower ([7, -12].map Itoa) ["-12", "7"] ∧
    containsInt [7, -12] ["-12", "7"] = true :=
  ⟨asciiToLower_Itoa, asciiToLower_eq_Itoa,
    (containsInt_eq_contains_Itoa asciiToLower asciiToLower_Itoa asciiToLower_eq_Itoa
      [7, -12] ["-12", "7"]).1,
    by decide⟩

/-! ## MiddlewareChain -/

theorem Chain_append_singleton {V σ α : Type} (base : HandlerFunc V σ α)
    (ms : List (HandlerFunc V σ α → HandlerFunc V σ α))
    (m : HandlerFunc V σ α → HandlerFunc V σ α) :
    Chain base (ms ++ [m]) = m (Chain base ms) := by
  induction ms generalizing base with
  | nil => rfl
  | cons m1 ms ih => exact ih (m1 base)

theorem Chain_logging {V α : Type} (base : HandlerFunc V (List String) α)
    (pairs : List (String × String)) (c : Context V) (log : List String) :
    Chain base (pairs.map (fun p => logging p.1 p.2)) c log =
      match base c (log ++ (pairs.map Prod.fst).reverse) with
      | (Outcome.panic, log1) => (Outcome.panic, log1)
      | (r, log1) => (r, log1 ++ pairs.map Prod.snd) := by
  induction pairs using List.reverseRecOn generalizing log with
  | nil =>
    simp only [List.map_nil, Chain, List.reverse_nil, List.append_nil]
    rcases h : base c log with ⟨r, l⟩
    cases r <;> rfl
  | append_singleton ps p ih =>
    rw [List.map_append, List.map_singleton, Chain_append_singleton]
    simp only [logging, ih, List.map_append, List.map_singleton, List.reverse_append,
      List.reverse_singleton, List.singleton_append, List.append_assoc]
    rcases h : base c (log ++ p.1 :: (ps.map Prod.fst).reverse) with ⟨r, l⟩
    cases r <;> simp

/-- C4: `Chain(base, m_1, ..., m_n)` is `m_n(...(m_1(base)))`: the empty sequence
gives `base`, and appending an interceptor wraps it around what was built so far, so
the last interceptor is outermost.  With interceptors that append `pre_i`, delegate
and append `post_i`, running the composed handler runs the pre-logic last to first,
then `base`, then the post-logic first to last (the post-logic is not reached when
`base` panics); for a base that logs "base" the log is
`pre_n, ..., pre_1, base, post_1, ..., post_n`, and for `[A, B]` it is
`B-pre, A-pre, base, A-post, B-post`. -/
theorem Chain_last_is_outermost :
    (∀ (V σ α : Type) (base : HandlerFunc V σ α), Chain base [] = base) ∧
    (∀ (V σ α : Type) (base : HandlerFunc V σ α)
        (ms : List (HandlerFunc V σ α → HandlerFunc V σ α))
        (m : HandlerFunc V σ α → HandlerFunc V σ α),
        Chain base (ms ++ [m]) = m (Chain base ms)) ∧
    (∀ (V σ α : Type) (base : HandlerFunc V σ α)
        (ms : List (HandlerFunc V σ α → HandlerFunc V σ α)),
        Chain base ms = List.foldr (fun m h => m h) base ms.reverse) ∧
    (∀ (V σ α : Type) (base : HandlerFunc V σ α)
        (A B : HandlerFunc V σ α → HandlerFunc V σ α),
        Chain base [A, B] = B (A base)) ∧
    (∀ (V α : Type) (base : HandlerFunc V (List String) α)
        (pairs : List (String × String)) (c : Context V) (log : List String),
        Chain base (pairs.map (fun p => logging p.1 p.2)) c log =
          match base c (log ++ (pairs.map Prod.fst).reverse) with
          | (Outcome.panic, log1) => (Outcome.panic, log1)
          | (r, log1) => (r, log1 ++ pairs.map Prod.snd)) ∧
    (∀ (V α : Type) (a : α) (pairs : List (String × String)) (c : Context V),
        Chain (logBase "base" a) (pairs.map (fun p => logging p.1 p.2)) c [] =
          (Outcome.ok a,
            (pairs.map Prod.fst).reverse ++ ["base"] ++ pairs.map Prod.snd)) ∧
    (∀ (V α : Type) (a : α) (c : Context V),
        Chain (logBase "base" a) [logging "A-pre" "A-post", logging "B-pre" "B-post"]
            c [] =
          (Outcome.ok a, ["B-pre", "A-pre", "base", "A-post", "B-post"])) := by
  refine ⟨fun _ _ _ _ => rfl, fun _ _ _ => Chain_append_singleton, ?_,
    fun _ _ _ _ _ _ => rfl, fun _ _ => Chain_logging, ?_, fun _ _ _ _ => rfl⟩
  · intro V σ α base ms
    induction ms using List.reverseRecOn with
    | nil => rfl
    | append_singleton ms m ih =>
      rw [Chain_append_singleton, List.reverse_append, List.reverse_singleton,
        List.singleton_append, List.foldr_cons, ih]
  · intro V α a pairs c
    rw [Chain_logging]
    simp [logBase]

/-! ## AuthGate -/

theorem splitChars_length (sep : Char) (cs : List Char) :
    (splitChars sep cs).length = cs.count sep + 1 := by
  induction cs with
  | nil => rfl
  | cons c cs ih =>
    by_cases h : c = sep
    · subst h
      simp [splitChars, ih]
    · have hne : (c == sep) = false := by simpa using h
      simp only [splitChars, h, if_false, List.count_cons, hne]
      cases hs : splitChars sep cs with
      | nil => rw [hs] at ih; simp at ih
      | cons p ps => rw [hs] at ih; simpa using ih

theorem Split_length (s : String) (sep : Char) :
    (Split s sep).length = s.data.count sep + 1 := by
  simp [Split, splitChars_length]

theorem jwtMW_of_bad_split {V σ α : Type} (Parse : String → Except String (Token V))
    (next : HandlerFunc V σ α) (c : Context V) (s : σ)
    (h : (Split (c.Request.Header.Get "Authorization") ' ').length ≠ 2) :
    jwtMW Parse next c s =
      (Outcome.error ⟨401, "no valid token found"⟩, s) := by
  simp only [jwtMW, h, ne_eq, not_false_eq_true, if_true, NewHTTPError, StatusUnauthorized]

theorem jwtMW_of_split {V σ α : Type} (Parse : String → Except String (Token V))
    (next : HandlerFunc V σ α) (c : Context V) (s : σ) (scheme tok : String)
    (h : Split (c.Request.Header.Get "Authorization") ' ' = [scheme, tok]) :
    jwtMW Parse next c s =
      match Parse tok with
      | .error _ => (Outcome.error ⟨401, "unauthorized"⟩, s)
      | .ok token =>
        match token.Claims, token.Valid with
        | .MapClaims claims, true => next (.CustomContext c claims) s
        | _, _ => (Outcome.error ⟨401, "unauthorized"⟩, s) := by
  simp only [jwtMW, h, NewHTTPError, StatusUnauthorized]
  simp

/-- C5: when the `Authorization` value does not split on the space character into
exactly two parts, that is, when it does not hold exactly one space (a missing or
empty header, "BadHeader", "a b c"), the handler made by `jwtMW` returns the 401
error "no valid token found", leaves the world state as it was, and the wrapped
handler is not invoked. -/
theorem jwtMW_no_valid_token :
    (∀ (V σ α : Type) (Parse : String → Except String (Token V))
        (next : HandlerFunc V σ α) (c : Context V) (s : σ),
        (Split (c.Request.Header.Get "Authorization") ' ').length ≠ 2 →
          jwtMW Parse next c s =
            (Outcome.error ⟨401, "no valid token found"⟩, s)) ∧
    (∀ (V α : Type) (Parse : String → Except String (Token V)) (r : Outcome α)
        (c : Context V) (trace : List (Context V)),
        (Split (c.Request.Header.Get "Authorization") ' ').length ≠ 2 →
          (jwtMW Parse (recording r) c trace).2 = trace) ∧
    (∀ a : String, (Split a ' ').length ≠ 2 ↔ a.data.count ' ' ≠ 1) ∧
    (Split (Header.Get [] "Authorization") ' ').length = 1 ∧
    (Split "" ' ').length = 1 ∧
    (Split "BadHeader" ' ').length = 1 ∧
    (Split "Bearer a b" ' ').length = 3 := by
  refine ⟨fun _ _ _ Parse next c s h => jwtMW_of_bad_split Parse next c s h, ?_, ?_,
    by decide, by decide, by decide, by decide⟩
  · intro V α Parse r c trace h
    rw [jwtMW_of_bad_split Parse _ c trace h]
  · intro a
    rw [Split_length]
    omega

/-- Witness for C5: the header value "BadHeader". -/
theorem jwtMW_no_valid_token_witness :
    (Split ((requestWith "BadHeader").Request.Header.Get "Authorization") ' ').length ≠ 2 ∧
    jwtMW sampleParse (recording (Outcome.ok (0 : Nat))) (requestWith "BadHeader") [] =
      (Outcome.error ⟨401, "no valid token found"⟩, []) :=
  ⟨by decide,
    jwtMW_no_valid_token.1 String (List (Context String)) Nat sampleParse
      (recording (Outcome.ok 0)) (requestWith "BadHeader") [] (by decide)⟩

/-- C6: when the `Authorization` value splits into exactly two parts `scheme` and
`tok`, the handler made by `jwtMW` invokes `next` exactly when `Parse tok` succeeds
with a valid token whose claims are a claim mapping.  In that case it is `next` run
once on the context that embeds the original context and carries the decoded claims,
with the world state and the result of `next` passed through unchanged; in every
other case it returns the 401 error "unauthorized" and `next` is not invoked. -/
theorem jwtMW_invokes_next_iff_verified {V : Type}
    (Parse : String → Except String (Token V)) (c : Context V) (scheme tok : String)
    (hsplit : Split (c.Request.Header.Get "Authorization") ' ' = [scheme, tok]) :
    (∀ claims : MapClaims V, Parse tok = .ok ⟨.MapClaims claims, true⟩ →
        ∀ (σ α : Type) (next : HandlerFunc V σ α) (s : σ),
          jwtMW Parse next c s = next (.CustomContext c claims) s) ∧
    ((∀ claims : MapClaims V, Parse tok ≠ .ok ⟨.MapClaims claims, true⟩) →
        ∀ (σ α : Type) (next : HandlerFunc V σ α) (s : σ),
          jwtMW Parse next c s = (Outcome.error ⟨401, "unauthorized"⟩, s)) ∧
    (∀ (α : Type) (r : Outcome α) (trace : List (Context V)),
        (∃ claims : MapClaims V, Parse tok = .ok ⟨.MapClaims claims, true⟩ ∧
            jwtMW Parse (recording r) c trace =
              (r, trace ++ [.CustomContext c claims])) ∨
        ((∀ claims : MapClaims V, Parse tok ≠ .ok ⟨.MapClaims claims, true⟩) ∧
            jwtMW Parse (recording r) c trace =
              (Outcome.error ⟨401, "unauthorized"⟩, trace))) := by
  have hok : ∀ claims : MapClaims V, Parse tok = .ok ⟨.MapClaims claims, true⟩ →
      ∀ (σ α : Type) (next : HandlerFunc V σ α) (s : σ),
        jwtMW Parse next c s = next (.CustomContext c claims) s := by
    intro claims hp σ α next s
    rw [jwtMW_of_split Parse next c s scheme tok hsplit, hp]
  have hbad : (∀ claims : MapClaims V, Parse tok ≠ .ok ⟨.MapClaims claims, true⟩) →
      ∀ (σ α : Type) (next : HandlerFunc V σ α) (s : σ),
        jwtMW Parse next c s = (Outcome.error ⟨401, "unauthorized"⟩, s) := by
    intro hp σ α next s
    rw [jwtMW_of_split Parse next c s scheme tok hsplit]
    cases hq : Parse tok with
    | error e => rfl
    | ok token =>
      rcases token with ⟨cl, valid⟩
      cases cl with
      | other => cases valid <;> rfl
      | MapClaims claims =>
        cases valid with
        | false => rfl
        | true => exact absurd hq (hp claims)
  refine ⟨hok, hbad, ?_⟩
  intro α r trace
  by_cases h : ∃ claims : MapClaims V, Parse tok = .ok ⟨.MapClaims claims, true⟩
  · obtain ⟨claims, hp⟩ := h
    exact Or.inl ⟨claims, hp, by rw [hok claims hp]; rfl⟩
  · have hp : ∀ claims : MapClaims V, Parse tok ≠ .ok ⟨.MapClaims claims, true⟩ :=
      fun claims hq => h ⟨claims, hq⟩
    exact Or.inr ⟨hp, hbad hp _ _ _ _⟩

/-- Witness for C6: the header value "Bearer good" and the sample verifier. -/
theorem jwtMW_invokes_next_iff_verified_witness :
    Split ((requestWith "Bearer good").Request.Header.Get "Authorization") ' ' =
      ["Bearer", "good"] ∧
    sampleParse "good" = .ok ⟨.MapClaims [("name", "alice")], true⟩ ∧
    jwtMW sampleParse (recording (Outcome.ok (0 : Nat))) (requestWith "Bearer good") [] =
      (Outcome.ok 0,
        [Context.CustomContext (requestWith "Bearer good") [("name", "alice")]]) :=
  ⟨by decide, rfl,
    (jwtMW_invokes_next_iff_verified sampleParse (requestWith "Bearer good")
      "Bearer" "good" (by decide)).1 [("name", "alice")] rfl
      (List (Context String)) Nat (recording (Outcome.ok 0)) []⟩

/-- C1, evaluated on the code: for a context whose claim mapping has no "name" entry
(an empty mapping, or a mapping with only a "sub" claim), `authenticated` does not
fail with the 401 error "malformed jwt"; it sends status 200 with the data `<nil>`.
The same happens end to end behind `jwtMW` for a verified token without claims. -/
theorem authenticated_missing_name_sends_200 :
    (∀ (V σ : Type) (fmtV : V → String) (inner : Context V) (s : σ),
        authenticated fmtV (.CustomContext inner []) s =
          (Outcome.ok ⟨200, ⟨"<nil>"⟩⟩, s)) ∧
    (∀ (σ : Type) (inner : Context String) (s : σ),
        authenticated id (.CustomContext inner [("sub", "42")]) s =
          (Outcome.ok ⟨200, ⟨"<nil>"⟩⟩, s)) ∧
    (∀ (σ : Type) (s : σ),
        jwtMW sampleParse (authenticated id) (requestWith "Bearer empty") s =
          (Outcome.ok ⟨200, ⟨"<nil>"⟩⟩, s)) := by
  have h3 : ∀ (σ : Type) (s : σ),
      jwtMW sampleParse (authenticated id) (requestWith "Bearer empty") s =
        (Outcome.ok ⟨200, ⟨"<nil>"⟩⟩, s) := by
    intro σ s
    rw [jwtMW_of_split sampleParse _ _ s "Bearer" "empty" (by decide)]
    rfl
  exact ⟨fun _ _ _ _ _ => rfl, fun _ _ _ => rfl, h3⟩

end MiddlewareSecurityEcho
